import Mathlib

/-!
Verification of the task-scheduling core: the ReluDrop task model
(`src/task_scheduling/tasks.py`), the factorial-base sequence encodings
(`src/task_scheduling/mdp/environments.py`), the environment reset guards,
and the branch-and-bound driver (modelled from the specification, the
implementation module `task_scheduling.algorithms.base` being absent from
the sources).

Floats are embedded as exact rationals `ℚ`; numpy `nan` results become
`Option.none`; Python exceptions become `Except.error`.
-/

namespace TaskSched

open scoped List

/-! ## ReluDrop task model, from `src/task_scheduling/tasks.py` -/

/-- The parameters of a `ReluDrop` task (class `ReluDrop`, which stores
`duration`, `t_release` from `Base.__init__` plus `_slope`, `_t_drop`,
`_l_drop`). -/
structure ReluDrop where
  duration : ℚ
  t_release : ℚ
  slope : ℚ
  t_drop : ℚ
  l_drop : ℚ
deriving DecidableEq, Repr

/-- `ReluDrop.__init__`: stores `float(duration)`, `float(t_release)` via
`Base.__init__` and writes `_slope`, `_t_drop`, `_l_drop` directly, with no
parameter validation. -/
def ReluDrop.init (duration t_release slope t_drop l_drop : ℚ) : ReluDrop :=
  ⟨duration, t_release, slope, t_drop, l_drop⟩

/-- The numerical tolerance `1e-9` used by `ReluDrop.__call__` in
`loss[t < -1e-9] = np.nan`. -/
def tol : ℚ := 1 / 1000000000

/-- `ReluDrop.__call__`: with relative time `tr = t - t_release`, numpy first
sets `loss = slope * tr`, then overwrites entries with `tr < -1e-9` by `nan`,
then overwrites entries with `tr >= t_drop` by `l_drop`; so the final value is
`l_drop` when `t_drop ≤ tr`, `nan` (here `none`) when `tr < -1e-9`, and
`slope * tr` otherwise. -/
def ReluDrop.eval (τ : ReluDrop) (t : ℚ) : Option ℚ :=
  let tr := t - τ.t_release
  if τ.t_drop ≤ tr then some τ.l_drop
  else if tr < -tol then none
  else some (τ.slope * tr)

/-- `ReluDrop._check_non_decreasing`: raises `ValueError` when
`l_drop < slope * t_drop`. -/
def check_non_decreasing (slope t_drop l_drop : ℚ) : Except String Unit :=
  if l_drop < slope * t_drop then
    .error "Loss function must be monotonically non-decreasing."
  else .ok ()

/-- The `slope` property setter: checks, then assigns `_slope`. -/
def ReluDrop.setSlope (τ : ReluDrop) (v : ℚ) : Except String ReluDrop :=
  match check_non_decreasing v τ.t_drop τ.l_drop with
  | .error e => .error e
  | .ok _ => .ok { τ with slope := v }

/-- The `t_drop` property setter: checks, then assigns `_t_drop`. -/
def ReluDrop.setTDrop (τ : ReluDrop) (v : ℚ) : Except String ReluDrop :=
  match check_non_decreasing τ.slope v τ.l_drop with
  | .error e => .error e
  | .ok _ => .ok { τ with t_drop := v }

/-- The `l_drop` property setter: checks, then assigns `_l_drop`. -/
def ReluDrop.setLDrop (τ : ReluDrop) (v : ℚ) : Except String ReluDrop :=
  match check_non_decreasing τ.slope τ.t_drop v with
  | .error e => .error e
  | .ok _ => .ok { τ with l_drop := v }

/-- `ReluDrop.shift_origin`: `t_excess = t - t_release`;
`t_release := max(0, -t_excess)` (a plain attribute, no check); when the new
release time is zero, evaluate the loss at `t_excess` (with the already
updated release time), clip `t_drop` and reduce `l_drop` through their
checked property setters, and return the incurred loss; otherwise return `0`.
In the zero branch `t_excess ≥ 0`, so the evaluation never yields `nan`; the
`none` arm mirrors a `nan` propagating out of `self(t_excess)`. -/
def ReluDrop.shift_origin (τ : ReluDrop) (t : ℚ) : Except String (ReluDrop × ℚ) :=
  let t_excess := t - τ.t_release
  let τ1 : ReluDrop := { τ with t_release := max 0 (-t_excess) }
  if τ1.t_release = 0 then
    match τ1.eval t_excess with
    | none => .error "nan loss"
    | some loss_inc =>
      match τ1.setTDrop (max 0 (τ1.t_drop - t_excess)) with
      | .error e => .error e
      | .ok τ2 =>
        match τ2.setLDrop (τ2.l_drop - loss_inc) with
        | .error e => .error e
        | .ok τ3 => .ok (τ3, loss_inc)
  else .ok (τ1, 0)

/-! ## Factorial-base sequence encodings, from
`src/task_scheduling/mdp/environments.py` (`seq_to_int`, `int_to_seq`,
both modelled with `check_input=True`) -/

/-- Python `list.index(n)`: position of the first occurrence of `n`
(callers below only use it when `n` is present, where Python would otherwise
raise `ValueError`). -/
def listIndex (n : ℕ) : List ℕ → ℕ
  | [] => 0
  | x :: xs => if x = n then 0 else listIndex n xs + 1

/-- Python `list.remove(n)`: drop the first occurrence of `n`. -/
def listRemove (n : ℕ) : List ℕ → List ℕ
  | [] => []
  | x :: xs => if x = n then xs else x :: listRemove n xs

/-- Python `list.pop(i)`: return the element at index `i` and the list
without it; `none` is Python's `IndexError`. -/
def popAt : List ℕ → ℕ → Option (ℕ × List ℕ)
  | [], _ => none
  | x :: xs, 0 => some (x, xs)
  | x :: xs, i + 1 => (popAt xs i).map (fun p => (p.1, x :: p.2))

/-- The loop of `seq_to_int`: for each element `n` of `seq` in order, add
`seq_rem.index(n) * factorial(length - 1 - i)` — the factorial of the number
of elements still to come — and remove `n` from `seq_rem`. -/
def seq_to_int_core : List ℕ → List ℕ → ℕ
  | [], _ => 0
  | n :: rest, seq_rem =>
      listIndex n seq_rem * Nat.factorial rest.length +
        seq_to_int_core rest (listRemove n seq_rem)

/-- `seq_to_int` with `check_input=True`: raise unless
`set(seq) == set(range(len(seq)))`, then run the loop with
`seq_rem = list(range(len(seq)))`. -/
def seq_to_int (seq : List ℕ) : Except String ℕ :=
  if seq.toFinset = (List.range seq.length).toFinset then
    .ok (seq_to_int_core seq (List.range seq.length))
  else .error "Input must have unique elements in range(len(seq))."

/-- The `while` loop of `int_to_seq`: while `seq_rem` is nonempty, let
`radix = factorial(len(seq_rem) - 1)`, split `num` into `num // radix` and
`num % radix`, and `pop` the element at index `num // radix`; a `pop` out of
range (Python `IndexError`) is `none`. Each iteration removes exactly one
element, so the loop runs `len(seq_rem)` times; `fuel` is that iteration
count (the caller passes the initial length), making the recursion
structural. -/
def int_to_seq_loop : ℕ → ℕ → List ℕ → Option (List ℕ)
  | _, _, [] => some []
  | 0, _, _ :: _ => none
  | fuel + 1, num, x :: rest =>
      let radix := Nat.factorial rest.length
      match popAt (x :: rest) (num / radix) with
      | none => none
      | some (n, seq_rem2) =>
          (int_to_seq_loop fuel (num % radix) seq_rem2).map (fun s => n :: s)

/-- `int_to_seq` with `check_input=True`: raise unless
`num ∈ range(factorial(length))`, then run the loop on
`seq_rem = list(range(length))`. -/
def int_to_seq (num length : ℕ) : Except String (List ℕ) :=
  if num < Nat.factorial length then
    match int_to_seq_loop length num (List.range length) with
    | some seq => .ok seq
    | none => .error "IndexError"
  else .error "Input num must be in range(factorial(length))."

/-! ## Environment reset shape guards, from
`src/task_scheduling/mdp/environments.py` (`Base.reset`) and
`src/Py/task_scheduling/env_tasking.py` (`BaseTaskingEnv.reset`).
The node object both resets construct (`tree_search.ScheduleNode`) is
defined outside the repository's sources, so the node is modelled as the
pair of constructor arguments it would be built from. -/

/-- An `mdp.environments.Base` environment: fixed task and channel counts,
plus the problem its node was last re-initialized from. -/
structure Env where
  n_tasks : ℕ
  n_ch : ℕ
  node : List ReluDrop × List ℚ

/-- `Base.reset` on explicit (non-`None`) `tasks` and `ch_avail`: raise
`ValueError` when `len(tasks) != n_tasks`, else when
`len(ch_avail) != n_ch`, else re-initialize the node from the inputs. -/
def Env.reset (env : Env) (tasks : List ReluDrop) (ch_avail : List ℚ) :
    Except String Env :=
  if tasks.length ≠ env.n_tasks then
    .error "Input tasks must be None or a list of n_tasks tasks"
  else if ch_avail.length ≠ env.n_ch then
    .error "Input ch_avail must be None or an array of n_ch channel availabilities"
  else .ok { env with node := (tasks, ch_avail) }

/-- A `env_tasking.BaseTaskingEnv`: its node class stores the problem in
`_tasks_init` / `_ch_avail_init`. -/
structure EnvKW where
  n_tasks : ℕ
  n_ch : ℕ
  tasks_init : List ReluDrop
  ch_avail_init : List ℚ

/-- `BaseTaskingEnv.reset` on explicit inputs: with `persist=True` the
stored problem is kept and the inputs are ignored entirely; otherwise the
same two shape guards run before the stored problem is replaced. -/
def EnvKW.reset (env : EnvKW) (tasks : List ReluDrop) (ch_avail : List ℚ)
    (persist : Bool) : Except String EnvKW :=
  if persist then .ok env
  else if tasks.length ≠ env.n_tasks then
    .error "Input tasks must be None or a list of n_tasks tasks"
  else if ch_avail.length ≠ env.n_ch then
    .error "Input ch_avail must be None or an array of n_ch channel availabilities"
  else .ok { env with tasks_init := tasks, ch_avail_init := ch_avail }

/-! ## Branch and bound

Modelled from the spec: the module `task_scheduling.algorithms.base`
holding `branch_bound` is not among the repository's source files (only its
callers, e.g. `generators/scheduling_problems.py`, are), so the Schedule
Node (spec section 4.1), the admissible lower bound (section 4.2) and the
branch-and-bound driver (section 4.3, realized with the depth-first
priority the spec allows; the optional upper-bound tightening of step 2a,
which the spec leaves to the implementation together with its optional
rollout recording, is omitted, so the incumbent loss itself plays the role
of `U`) are built from the specification's words. -/

/-- A task as the scheduler sees it (spec section 9: the core is polymorphic
over `{eval_loss(t), duration, t_release}`). -/
structure Task where
  duration : ℚ
  t_release : ℚ
  loss : ℚ → ℚ

/-- Out-of-range index fallback; never reached on well-formed sequences. -/
def Task.dummy : Task := ⟨0, 0, fun _ => 0⟩

/-- First-minimum index and minimum value of a channel-availability list
(ties broken by smallest channel index, spec section 4.1). -/
def minIdx : List ℚ → ℕ × ℚ
  | [] => (0, 0)
  | [x] => (0, x)
  | x :: xs =>
      let p := minIdx xs
      if x ≤ p.2 then (0, x) else (p.1 + 1, p.2)

/-- A Schedule Node (spec section 3): partial sequence, remaining indices,
per-task execution times and channels, channel availabilities and
accumulated loss. -/
structure Node where
  seq : List ℕ
  seq_rem : List ℕ
  t_ex : List (Option ℚ)
  ch_ex : List (Option ℕ)
  ch_avail : List ℚ
  loss : ℚ

/-- `new(tasks, ch_avail)` for the plain (non-shift) node. -/
def rootNode (tasks : List Task) (ch_avail : List ℚ) : Node :=
  { seq := []
    seq_rem := List.range tasks.length
    t_ex := List.replicate tasks.length none
    ch_ex := List.replicate tasks.length none
    ch_avail := ch_avail
    loss := 0 }

/-- `extend(i)` (spec section 4.1): choose `c* = argmin ch_avail` (ties by
smallest index), start task `i` at `max(ch_avail[c*], t_release)`, add its
loss, advance the chosen channel by the duration, move `i` from `seq_rem`
to the end of `seq`. -/
def extend (tasks : List Task) (nd : Node) (i : ℕ) : Node :=
  let τ := tasks.getD i Task.dummy
  let c := (minIdx nd.ch_avail).1
  let t := max (minIdx nd.ch_avail).2 τ.t_release
  { seq := nd.seq ++ [i]
    seq_rem := listRemove i nd.seq_rem
    t_ex := nd.t_ex.set i (some t)
    ch_ex := nd.ch_ex.set i (some c)
    ch_avail := nd.ch_avail.set c (t + τ.duration)
    loss := nd.loss + τ.loss t }

/-- Running a whole index sequence from a node. -/
def runSeq (tasks : List Task) (nd : Node) (σ : List ℕ) : Node :=
  σ.foldl (extend tasks) nd

/-- The admissible lower bound (spec section 4.2):
`loss + Σ_{i ∈ seq_rem} task_i(max(min(ch_avail), task_i.t_release))`. -/
def lowerBound (tasks : List Task) (nd : Node) : ℚ :=
  nd.loss + (nd.seq_rem.map (fun i =>
    let τ := tasks.getD i Task.dummy
    τ.loss (max (minIdx nd.ch_avail).2 τ.t_release))).sum

/-- Incumbent update test: a terminal node replaces the incumbent only on
strict improvement (spec section 4.3 step 2); `none` is `U = +∞`. -/
def better (nd : Node) : Option Node → Bool
  | none => true
  | some b => decide (nd.loss < b.loss)

/-- Pruning test for a child (spec section 4.3 step 2b): keep it only when
its lower bound beats the incumbent. -/
def keepChild (tasks : List Task) (child : Node) : Option Node → Bool
  | none => true
  | some b => decide (lowerBound tasks child < b.loss)

/-- Depth-first branch and bound from node `nd` with incumbent `inc`:
a terminal node updates the incumbent on strict improvement; otherwise every
child `extend nd i` (in ascending branch order over `seq_rem`) whose lower
bound beats the incumbent is searched, threading the incumbent through the
fold. `fuel` is `|seq_rem|`, which bounds the recursion depth. -/
def bbAux (tasks : List Task) : ℕ → Node → Option Node → Option Node
  | 0, nd, inc =>
    if nd.seq_rem = [] then (if better nd inc then some nd else inc) else inc
  | fuel + 1, nd, inc =>
    if nd.seq_rem = [] then (if better nd inc then some nd else inc)
    else
      nd.seq_rem.foldl
        (fun acc i =>
          if keepChild tasks (extend tasks nd i) acc then
            bbAux tasks fuel (extend tasks nd i) acc
          else acc) inc

/-- One step of the child fold of `bbAux`: prune or search the child. -/
def bbStep (tasks : List Task) (fuel : ℕ) (nd : Node) (acc : Option Node)
    (i : ℕ) : Option Node :=
  if keepChild tasks (extend tasks nd i) acc then
    bbAux tasks fuel (extend tasks nd i) acc
  else acc

/-- `branch_bound(tasks, ch_avail)` (spec section 4.3): search from the root
with an empty incumbent. -/
def branch_bound (tasks : List Task) (ch_avail : List ℚ) : Option Node :=
  bbAux tasks tasks.length (rootNode tasks ch_avail) none

/-- The data-model constraints on the indexed task access: nonnegative
duration and a loss function non-decreasing from the release time on
(the fallback task satisfies both). -/
def TasksOK (tasks : List Task) : Prop :=
  ∀ i : ℕ, 0 ≤ (tasks.getD i Task.dummy).duration ∧
    ∀ s t : ℚ, (tasks.getD i Task.dummy).t_release ≤ s → s ≤ t →
      (tasks.getD i Task.dummy).loss s ≤ (tasks.getD i Task.dummy).loss t

/-! ## Theorems about the ReluDrop loss function -/

/-- C1 counterexample: the task `ReluDrop(1, 1, 1, 1, 1)` satisfies every
parameter constraint of the claim, and `t = 1 - 10⁻¹⁰ < t_release = 1`, yet
the loss evaluates to `slope * (t - t_release) = -10⁻¹⁰`, not `nan`: the code
only returns `nan` below the tolerance `t_release - 10⁻⁹`. -/
theorem eval_claims_nan_at_release_cex :
    ((1 : ℚ) - 1/10000000000) < (ReluDrop.init 1 1 1 1 1).t_release ∧
      (ReluDrop.init 1 1 1 1 1).eval (1 - 1/10000000000) =
        some (-(1/10000000000)) := by
  constructor
  · norm_num [ReluDrop.init]
  · simp only [ReluDrop.init, ReluDrop.eval, tol]
    norm_num

/-- C1 (amended): for a ReluDrop task with `duration, t_release, slope,
t_drop, l_drop ≥ 0`, the loss at `t` is `nan` for `t < t_release - 10⁻⁹`
(the code's tolerance), `slope * (t - t_release)` for
`t_release - 10⁻⁹ ≤ t < t_release + t_drop`, and `l_drop` for
`t ≥ t_release + t_drop`. -/
theorem eval_piecewise (τ : ReluDrop) (h0 : 0 ≤ τ.duration)
    (h1 : 0 ≤ τ.t_release) (h2 : 0 ≤ τ.slope) (h3 : 0 ≤ τ.t_drop)
    (h4 : 0 ≤ τ.l_drop) (t : ℚ) :
    (t < τ.t_release - tol → τ.eval t = none) ∧
      (τ.t_release - tol ≤ t → t < τ.t_release + τ.t_drop →
        τ.eval t = some (τ.slope * (t - τ.t_release))) ∧
      (τ.t_release + τ.t_drop ≤ t → τ.eval t = some τ.l_drop) := by
  have htol : (0 : ℚ) < tol := by norm_num [tol]
  refine ⟨fun hlt => ?_, fun hge hlt => ?_, fun hge => ?_⟩
  · simp only [ReluDrop.eval]
    rw [if_neg (by linarith), if_pos (by linarith)]
  · simp only [ReluDrop.eval]
    rw [if_neg (by linarith), if_neg (by linarith)]
  · simp only [ReluDrop.eval]
    rw [if_pos (by linarith)]

/-- Witness for the amended C1 theorem at the task `ReluDrop(1, 1, 1, 1, 1)`
and `t = 3`. -/
theorem eval_piecewise_witness :
    ((3 : ℚ) < (ReluDrop.init 1 1 1 1 1).t_release - tol →
        (ReluDrop.init 1 1 1 1 1).eval 3 = none) ∧
      ((ReluDrop.init 1 1 1 1 1).t_release - tol ≤ 3 →
        (3 : ℚ) < (ReluDrop.init 1 1 1 1 1).t_release + (ReluDrop.init 1 1 1 1 1).t_drop →
        (ReluDrop.init 1 1 1 1 1).eval 3 =
          some ((ReluDrop.init 1 1 1 1 1).slope * (3 - (ReluDrop.init 1 1 1 1 1).t_release))) ∧
      ((ReluDrop.init 1 1 1 1 1).t_release + (ReluDrop.init 1 1 1 1 1).t_drop ≤ 3 →
        (ReluDrop.init 1 1 1 1 1).eval 3 = some (ReluDrop.init 1 1 1 1 1).l_drop) :=
  eval_piecewise (ReluDrop.init 1 1 1 1 1) (by norm_num [ReluDrop.init])
    (by norm_num [ReluDrop.init]) (by norm_num [ReluDrop.init])
    (by norm_num [ReluDrop.init]) (by norm_num [ReluDrop.init]) 3

/-! ## Theorems about `shift_origin` -/

/-- Full characterization of `shift_origin` on tasks satisfying the data
model's attribute constraints `slope ≥ 0`, `t_drop ≥ 0` and the
non-decreasing invariant `l_drop ≥ slope * t_drop`: it always succeeds, and
in the crossed branch the new parameters still satisfy the invariant. -/
lemma shift_origin_result (τ : ReluDrop) (δ : ℚ) (hs : 0 ≤ τ.slope)
    (hd : 0 ≤ τ.t_drop) (hinv : τ.slope * τ.t_drop ≤ τ.l_drop) :
    (τ.t_release ≤ δ →
      ∃ loss, ({ τ with t_release := 0 } : ReluDrop).eval (δ - τ.t_release) = some loss ∧
        τ.shift_origin δ = .ok
          ({ τ with t_release := 0,
                    t_drop := max 0 (τ.t_drop - (δ - τ.t_release)),
                    l_drop := τ.l_drop - loss }, loss) ∧
        τ.slope * max 0 (τ.t_drop - (δ - τ.t_release)) ≤ τ.l_drop - loss) ∧
    (δ < τ.t_release →
      τ.shift_origin δ = .ok ({ τ with t_release := τ.t_release - δ }, 0)) := by
  have htol : (0 : ℚ) < tol := by norm_num [tol]
  constructor
  · intro hle
    have he : 0 ≤ δ - τ.t_release := by linarith
    have hmax0 : max 0 (-(δ - τ.t_release)) = 0 := max_eq_left (by linarith)
    have hmaxd : max 0 (τ.t_drop - (δ - τ.t_release)) ≤ τ.t_drop := by
      rcases max_cases 0 (τ.t_drop - (δ - τ.t_release)) with ⟨h, _⟩ | ⟨h, _⟩ <;>
        rw [h] <;> linarith
    have hchk1 : ¬ τ.l_drop < τ.slope * max 0 (τ.t_drop - (δ - τ.t_release)) := by
      have := mul_le_mul_of_nonneg_left hmaxd hs
      push_neg
      linarith
    by_cases hcase : τ.t_drop ≤ δ - τ.t_release
    · -- past the drop time: the whole `l_drop` is crossed
      have hmax0' : max 0 (τ.t_drop - (δ - τ.t_release)) = 0 :=
        max_eq_left (by linarith)
      refine ⟨τ.l_drop, ?_, ?_, ?_⟩
      · simp [ReluDrop.eval, hcase]
      · simp only [ReluDrop.shift_origin, hmax0, if_true]
        simp only [ReluDrop.eval, hmax0, sub_zero]
        rw [if_pos hcase]
        simp only [ReluDrop.setTDrop, check_non_decreasing]
        rw [if_neg hchk1]
        simp only [ReluDrop.setLDrop, check_non_decreasing]
        rw [if_neg (by rw [hmax0', mul_zero, sub_self]; exact lt_irrefl 0)]
      · rw [hmax0']
        simp
    · -- still on the sloped segment
      push_neg at hcase
      have hmaxe : max 0 (τ.t_drop - (δ - τ.t_release)) = τ.t_drop - (δ - τ.t_release) :=
        max_eq_right (by linarith)
      have hcase' : ¬ τ.t_drop ≤ δ - τ.t_release := not_le.mpr hcase
      have hntol : ¬ δ - τ.t_release < -tol := not_lt.mpr (by linarith)
      have hchk2 :
          ¬ τ.l_drop - τ.slope * (δ - τ.t_release) <
              τ.slope * (τ.t_drop - (δ - τ.t_release)) :=
        not_lt.mpr (by rw [mul_sub]; linarith)
      refine ⟨τ.slope * (δ - τ.t_release), ?_, ?_, ?_⟩
      · simp [ReluDrop.eval, hcase', hntol]
      · simp only [ReluDrop.shift_origin, hmax0, if_true]
        simp only [ReluDrop.eval, hmax0, sub_zero]
        rw [if_neg hcase', if_neg hntol]
        simp only [ReluDrop.setTDrop, check_non_decreasing, hmaxe]
        rw [if_neg (hmaxe ▸ hchk1)]
        simp only [ReluDrop.setLDrop, check_non_decreasing, if_neg hchk2]
      · rw [hmaxe, mul_sub]
        linarith
  · intro hlt
    have hmaxp : max 0 (-(δ - τ.t_release)) = τ.t_release - δ := by
      rw [max_eq_right (by linarith)]
      ring
    simp only [ReluDrop.shift_origin, hmaxp]
    rw [if_neg (show ¬τ.t_release - δ = 0 by intro h; linarith)]

lemma setTDrop_ok {τ τ2 : ReluDrop} {v : ℚ} (h : τ.setTDrop v = .ok τ2) :
    τ2 = { τ with t_drop := v } := by
  rw [ReluDrop.setTDrop, check_non_decreasing] at h
  split_ifs at h <;> cases h <;> rfl

lemma setLDrop_ok {τ τ2 : ReluDrop} {v : ℚ} (h : τ.setLDrop v = .ok τ2) :
    τ2 = { τ with l_drop := v } := by
  rw [ReluDrop.setLDrop, check_non_decreasing] at h
  split_ifs at h <;> cases h <;> rfl

/-- C2 (confirmed): for a task satisfying the data model's attribute
constraints (`slope ≥ 0`, `t_drop ≥ 0`) and the invariant
`l_drop ≥ slope * t_drop`, and `δ > 0`, `shift_origin δ` succeeds with new
`t_release = max(0, t_release - δ)`; when the new release time is zero it
returns the loss of the release-updated task at `δ - old t_release`, clips
`t_drop` to `max(0, t_drop - (δ - old t_release))` and subtracts the returned
loss from `l_drop`; otherwise it returns `0` and leaves `t_drop`, `l_drop`
unchanged. -/
theorem shift_origin_spec (τ : ReluDrop) (δ : ℚ) (hs : 0 ≤ τ.slope)
    (hd : 0 ≤ τ.t_drop) (hinv : τ.slope * τ.t_drop ≤ τ.l_drop) (hδ : 0 < δ) :
    ∃ τ' loss, τ.shift_origin δ = .ok (τ', loss) ∧
      τ'.t_release = max 0 (τ.t_release - δ) ∧
      (τ'.t_release = 0 →
        ({ τ with t_release := 0 } : ReluDrop).eval (δ - τ.t_release) = some loss ∧
          τ'.t_drop = max 0 (τ.t_drop - (δ - τ.t_release)) ∧
          τ'.l_drop = τ.l_drop - loss) ∧
      (τ'.t_release ≠ 0 → loss = 0 ∧ τ'.t_drop = τ.t_drop ∧ τ'.l_drop = τ.l_drop) := by
  obtain ⟨hA, hB⟩ := shift_origin_result τ δ hs hd hinv
  rcases le_or_lt τ.t_release δ with hle | hlt
  · obtain ⟨loss, heval, hok, _⟩ := hA hle
    exact ⟨_, loss, hok, by simp [max_eq_left (by linarith : τ.t_release - δ ≤ 0)],
      fun _ => ⟨heval, rfl, rfl⟩, fun hne => absurd rfl hne⟩
  · have hne : τ.t_release - δ ≠ 0 := by intro h; linarith
    exact ⟨_, 0, hB hlt,
      by simp [max_eq_right (by linarith : (0:ℚ) ≤ τ.t_release - δ)],
      fun h0 => absurd h0 hne, fun _ => ⟨rfl, rfl, rfl⟩⟩

/-- Witness for the C2 theorem at `ReluDrop(1, 2, 1, 3, 5)` and `δ = 1`. -/
theorem shift_origin_spec_witness :
    ∃ τ' loss, (ReluDrop.init 1 2 1 3 5).shift_origin 1 = .ok (τ', loss) ∧
      τ'.t_release = max 0 ((ReluDrop.init 1 2 1 3 5).t_release - 1) ∧
      (τ'.t_release = 0 →
        ({ ReluDrop.init 1 2 1 3 5 with t_release := 0 } : ReluDrop).eval
            (1 - (ReluDrop.init 1 2 1 3 5).t_release) = some loss ∧
          τ'.t_drop = max 0 ((ReluDrop.init 1 2 1 3 5).t_drop -
            (1 - (ReluDrop.init 1 2 1 3 5).t_release)) ∧
          τ'.l_drop = (ReluDrop.init 1 2 1 3 5).l_drop - loss) ∧
      (τ'.t_release ≠ 0 → loss = 0 ∧ τ'.t_drop = (ReluDrop.init 1 2 1 3 5).t_drop ∧
        τ'.l_drop = (ReluDrop.init 1 2 1 3 5).l_drop) :=
  shift_origin_spec (ReluDrop.init 1 2 1 3 5) 1 (by norm_num [ReluDrop.init])
    (by norm_num [ReluDrop.init]) (by norm_num [ReluDrop.init]) (by norm_num)

/-- C4 (confirmed): on a task satisfying the data model's attribute
constraints and the invariant `l_drop ≥ slope * t_drop`, `shift_origin`
with `δ > 0` succeeds (neither property-setter monotonicity check raises)
and the resulting task still satisfies `l_drop ≥ slope * t_drop`. -/
theorem shift_origin_preserves_invariant (τ : ReluDrop) (δ : ℚ)
    (hs : 0 ≤ τ.slope) (hd : 0 ≤ τ.t_drop)
    (hinv : τ.slope * τ.t_drop ≤ τ.l_drop) (hδ : 0 < δ) :
    ∃ τ' loss, τ.shift_origin δ = .ok (τ', loss) ∧
      τ'.slope * τ'.t_drop ≤ τ'.l_drop := by
  obtain ⟨hA, hB⟩ := shift_origin_result τ δ hs hd hinv
  rcases le_or_lt τ.t_release δ with hle | hlt
  · obtain ⟨loss, _, hok, hkeep⟩ := hA hle
    exact ⟨_, loss, hok, hkeep⟩
  · exact ⟨_, 0, hB hlt, hinv⟩

/-- Witness for the C4 theorem at `ReluDrop(1, 0, 1, 3, 5)` and `δ = 1`. -/
theorem shift_origin_preserves_invariant_witness :
    ∃ τ' loss, (ReluDrop.init 1 0 1 3 5).shift_origin 1 = .ok (τ', loss) ∧
      τ'.slope * τ'.t_drop ≤ τ'.l_drop :=
  shift_origin_preserves_invariant (ReluDrop.init 1 0 1 3 5) 1
    (by norm_num [ReluDrop.init]) (by norm_num [ReluDrop.init])
    (by norm_num [ReluDrop.init]) (by norm_num)

/-- C9 (confirmed): whenever `shift_origin` with `δ > 0` returns, the task's
`duration` and `slope` are unchanged — the method only ever assigns
`t_release`, `t_drop` and `l_drop`. -/
theorem shift_origin_frame (τ : ReluDrop) (δ : ℚ) (hδ : 0 < δ)
    (τ' : ReluDrop) (loss : ℚ) (h : τ.shift_origin δ = .ok (τ', loss)) :
    τ'.duration = τ.duration ∧ τ'.slope = τ.slope := by
  simp only [ReluDrop.shift_origin] at h
  split_ifs at h
  · split at h
    · cases h
    · split at h
      · cases h
      · rename_i τ2 ht
        split at h
        · cases h
        · rename_i τ3 hl
          cases h
          rw [setLDrop_ok hl, setTDrop_ok ht]
          exact ⟨rfl, rfl⟩
  · cases h
    exact ⟨rfl, rfl⟩

/-- Witness for the C9 theorem at `ReluDrop(1, 2, 1, 3, 5)`, `δ = 1`. -/
theorem shift_origin_frame_witness :
    (ReluDrop.init 1 1 1 3 5).duration = (ReluDrop.init 1 2 1 3 5).duration ∧
      (ReluDrop.init 1 1 1 3 5).slope = (ReluDrop.init 1 2 1 3 5).slope :=
  shift_origin_frame (ReluDrop.init 1 2 1 3 5) 1 (by norm_num)
    (ReluDrop.init 1 1 1 3 5) 0
    (by norm_num [ReluDrop.shift_origin, ReluDrop.init])

/-! ## Theorems about construction and the property setters -/

/-- C3 counterexample: `ReluDrop(1, 0, 2, 1, 1)` violates
`l_drop ≥ slope * t_drop` (`1 < 2`), and `ReluDrop(-1, -1, 2, 1, 4)` has
negative duration and release time, yet both constructions succeed and store
the parameters verbatim — `__init__` bypasses every check. -/
theorem init_accepts_invalid_params_cex :
    ((ReluDrop.init 1 0 2 1 1).l_drop <
        (ReluDrop.init 1 0 2 1 1).slope * (ReluDrop.init 1 0 2 1 1).t_drop ∧
      ReluDrop.init 1 0 2 1 1 = ⟨1, 0, 2, 1, 1⟩) ∧
      ((ReluDrop.init (-1) (-1) 2 1 4).duration < 0 ∧
        ReluDrop.init (-1) (-1) 2 1 4 = ⟨-1, -1, 2, 1, 4⟩) := by
  refine ⟨⟨?_, rfl⟩, ⟨?_, rfl⟩⟩ <;> norm_num [ReluDrop.init]

/-- C3 (amended): construction performs no parameter validation — any
parameters, including `l_drop < slope * t_drop` or negative
duration/release, are accepted silently and stored verbatim; the
non-decreasing check raises only when `slope`, `t_drop` or `l_drop` is later
assigned through its property setter, as the rejection of the same violating
`l_drop` by its setter shows. -/
theorem init_stores_params_unchecked (d tr s td ld : ℚ) (h : ld < s * td) :
    ReluDrop.init d tr s td ld = ⟨d, tr, s, td, ld⟩ ∧
      (ReluDrop.init d tr s td ld).setLDrop ld =
        .error "Loss function must be monotonically non-decreasing." := by
  refine ⟨rfl, ?_⟩
  rw [ReluDrop.setLDrop, check_non_decreasing]
  simp only [ReluDrop.init]
  rw [if_pos h]

/-- Witness for the amended C3 theorem at parameters `(1, 0, 2, 1, 1)`. -/
theorem init_stores_params_unchecked_witness :
    ReluDrop.init 1 0 2 1 1 = ⟨1, 0, 2, 1, 1⟩ ∧
      (ReluDrop.init 1 0 2 1 1).setLDrop 1 =
        .error "Loss function must be monotonically non-decreasing." :=
  init_stores_params_unchecked 1 0 2 1 1 (by norm_num)

/-- C10 (confirmed): each of the `slope`, `t_drop`, `l_drop` property setters
first runs the non-decreasing check against the other two current attributes
and raises `ValueError` — before anything is assigned, so the task is
unchanged — when the new value would give `l_drop < slope * t_drop`; when the
inequality is preserved the assignment succeeds and changes exactly the
assigned attribute. -/
theorem setters_check_and_assign (τ : ReluDrop) (v : ℚ)
    (hinv : τ.slope * τ.t_drop ≤ τ.l_drop) :
    ((τ.l_drop < v * τ.t_drop →
        τ.setSlope v = .error "Loss function must be monotonically non-decreasing.") ∧
      (¬τ.l_drop < v * τ.t_drop → τ.setSlope v = .ok { τ with slope := v })) ∧
      ((τ.l_drop < τ.slope * v →
        τ.setTDrop v = .error "Loss function must be monotonically non-decreasing.") ∧
      (¬τ.l_drop < τ.slope * v → τ.setTDrop v = .ok { τ with t_drop := v })) ∧
      ((v < τ.slope * τ.t_drop →
        τ.setLDrop v = .error "Loss function must be monotonically non-decreasing.") ∧
      (¬v < τ.slope * τ.t_drop → τ.setLDrop v = .ok { τ with l_drop := v })) := by
  refine ⟨⟨?_, ?_⟩, ⟨?_, ?_⟩, ?_, ?_⟩ <;> intro h
  · rw [ReluDrop.setSlope, check_non_decreasing, if_pos h]
  · rw [ReluDrop.setSlope, check_non_decreasing, if_neg h]
  · rw [ReluDrop.setTDrop, check_non_decreasing, if_pos h]
  · rw [ReluDrop.setTDrop, check_non_decreasing, if_neg h]
  · rw [ReluDrop.setLDrop, check_non_decreasing, if_pos h]
  · rw [ReluDrop.setLDrop, check_non_decreasing, if_neg h]

/-- Witness for the C10 theorem at `ReluDrop(1, 0, 1, 2, 5)` and `v = 3`. -/
theorem setters_check_and_assign_witness :
    (((ReluDrop.init 1 0 1 2 5).l_drop < 3 * (ReluDrop.init 1 0 1 2 5).t_drop →
        (ReluDrop.init 1 0 1 2 5).setSlope 3 =
          .error "Loss function must be monotonically non-decreasing.") ∧
      (¬(ReluDrop.init 1 0 1 2 5).l_drop < 3 * (ReluDrop.init 1 0 1 2 5).t_drop →
        (ReluDrop.init 1 0 1 2 5).setSlope 3 =
          .ok { ReluDrop.init 1 0 1 2 5 with slope := 3 })) ∧
      (((ReluDrop.init 1 0 1 2 5).l_drop < (ReluDrop.init 1 0 1 2 5).slope * 3 →
        (ReluDrop.init 1 0 1 2 5).setTDrop 3 =
          .error "Loss function must be monotonically non-decreasing.") ∧
      (¬(ReluDrop.init 1 0 1 2 5).l_drop < (ReluDrop.init 1 0 1 2 5).slope * 3 →
        (ReluDrop.init 1 0 1 2 5).setTDrop 3 =
          .ok { ReluDrop.init 1 0 1 2 5 with t_drop := 3 })) ∧
      (((3 : ℚ) < (ReluDrop.init 1 0 1 2 5).slope * (ReluDrop.init 1 0 1 2 5).t_drop →
        (ReluDrop.init 1 0 1 2 5).setLDrop 3 =
          .error "Loss function must be monotonically non-decreasing.") ∧
      (¬(3 : ℚ) < (ReluDrop.init 1 0 1 2 5).slope * (ReluDrop.init 1 0 1 2 5).t_drop →
        (ReluDrop.init 1 0 1 2 5).setLDrop 3 =
          .ok { ReluDrop.init 1 0 1 2 5 with l_drop := 3 })) :=
  setters_check_and_assign (ReluDrop.init 1 0 1 2 5) 3 (by norm_num [ReluDrop.init])

/-! ### Lemmas about the list primitives -/

lemma listIndex_lt_length {n : ℕ} {l : List ℕ} (h : n ∈ l) :
    listIndex n l < l.length := by
  induction l with
  | nil => cases h
  | cons x xs ih =>
    simp only [listIndex, List.length_cons]
    split_ifs with hx
    · omega
    · rcases List.mem_cons.mp h with h1 | h1
      · exact absurd h1.symm hx
      · exact Nat.succ_lt_succ (ih h1)

lemma popAt_listIndex {n : ℕ} {l : List ℕ} (h : n ∈ l) :
    popAt l (listIndex n l) = some (n, listRemove n l) := by
  induction l with
  | nil => cases h
  | cons x xs ih =>
    simp only [listIndex, listRemove]
    split_ifs with hx
    · subst hx
      rfl
    · rcases List.mem_cons.mp h with h1 | h1
      · exact absurd h1.symm hx
      · simp [popAt, ih h1]

lemma perm_cons_listRemove {n : ℕ} {l : List ℕ} (h : n ∈ l) :
    l ~ n :: listRemove n l := by
  induction l with
  | nil => cases h
  | cons x xs ih =>
    simp only [listRemove]
    split_ifs with hx
    · subst hx
      exact List.Perm.refl _
    · rcases List.mem_cons.mp h with h1 | h1
      · exact absurd h1.symm hx
      · exact ((ih h1).cons x).trans (List.Perm.swap n x _)

lemma popAt_lt {l : List ℕ} {k : ℕ} (h : k < l.length) :
    ∃ n l2, popAt l k = some (n, l2) := by
  induction l generalizing k with
  | nil => simp at h
  | cons x xs ih =>
    cases k with
    | zero => exact ⟨x, xs, rfl⟩
    | succ k =>
      obtain ⟨n, l2, heq⟩ := ih (by simpa using Nat.lt_of_succ_lt_succ h)
      exact ⟨n, x :: l2, by simp [popAt, heq]⟩

lemma popAt_some {l : List ℕ} {k : ℕ} {n : ℕ} {l2 : List ℕ}
    (h : popAt l k = some (n, l2)) :
    l ~ n :: l2 ∧ l2.length + 1 = l.length ∧
      (l.Nodup → l2 = listRemove n l ∧ listIndex n l = k ∧ l2.Nodup) := by
  induction l generalizing k n l2 with
  | nil => cases h
  | cons x xs ih =>
    cases k with
    | zero =>
      simp only [popAt] at h
      injection h with hh
      injection hh with hn hl
      subst hn
      subst hl
      refine ⟨List.Perm.refl _, by simp, fun hnd => ⟨?_, ?_, (List.nodup_cons.mp hnd).2⟩⟩
      · simp [listRemove]
      · simp [listIndex]
    | succ k =>
      simp only [popAt] at h
      rcases hxs : popAt xs k with _ | ⟨n', ys⟩
      · rw [hxs] at h
        cases h
      · rw [hxs] at h
        simp only [Option.map] at h
        injection h with hh
        injection hh with hn hl
        subst hn
        subst hl
        obtain ⟨hperm, hlen, hnd'⟩ := ih hxs
        have hmem : n' ∈ xs := hperm.mem_iff.mpr (List.mem_cons_self _ _)
        refine ⟨((hperm.cons x).trans (List.Perm.swap n' x _)), by simpa using hlen,
          fun hnd => ?_⟩
        obtain ⟨hxnot, hxsnd⟩ := List.nodup_cons.mp hnd
        obtain ⟨hrem, hidx, hysnd⟩ := hnd' hxsnd
        have hxn : ¬ x = n' := fun hcontra => hxnot (hcontra ▸ hmem)
        refine ⟨by simp [listRemove, hxn, hrem], by simp [listIndex, hxn, hidx], ?_⟩
        exact List.nodup_cons.mpr
          ⟨fun hx2 => hxnot (hperm.mem_iff.mpr (List.mem_cons_of_mem _ hx2)), hysnd⟩

lemma seq_to_int_core_lt {seq seq_rem : List ℕ} (hp : seq ~ seq_rem) :
    seq_to_int_core seq seq_rem < Nat.factorial seq.length := by
  induction seq generalizing seq_rem with
  | nil => simpa [seq_to_int_core] using Nat.factorial_pos 0
  | cons n rest ih =>
    have hn : n ∈ seq_rem := hp.mem_iff.mp (List.mem_cons_self n rest)
    have hrest : rest ~ listRemove n seq_rem :=
      (hp.trans (perm_cons_listRemove hn)).cons_inv
    have hk : listIndex n seq_rem < rest.length + 1 := by
      have h1 := listIndex_lt_length hn
      have h2 := hp.length_eq
      simp only [List.length_cons] at h2
      omega
    have hm := ih hrest
    simp only [seq_to_int_core, List.length_cons, Nat.factorial_succ]
    calc listIndex n seq_rem * Nat.factorial rest.length +
          seq_to_int_core rest (listRemove n seq_rem)
        < (listIndex n seq_rem + 1) * Nat.factorial rest.length := by
          rw [Nat.add_mul, Nat.one_mul]
          omega
      _ ≤ (rest.length + 1) * Nat.factorial rest.length :=
          Nat.mul_le_mul_right _ hk

lemma int_to_seq_loop_of_core {seq seq_rem : List ℕ} (hp : seq ~ seq_rem) :
    int_to_seq_loop seq_rem.length (seq_to_int_core seq seq_rem) seq_rem = some seq := by
  induction seq generalizing seq_rem with
  | nil =>
    have : seq_rem = [] := hp.symm.eq_nil
    subst this
    rfl
  | cons n rest ih =>
    have hn : n ∈ seq_rem := hp.mem_iff.mp (List.mem_cons_self n rest)
    have hrest : rest ~ listRemove n seq_rem :=
      (hp.trans (perm_cons_listRemove hn)).cons_inv
    have hm : seq_to_int_core rest (listRemove n seq_rem) < Nat.factorial rest.length :=
      seq_to_int_core_lt hrest
    obtain ⟨x, tail, rfl⟩ : ∃ x tail, seq_rem = x :: tail := by
      cases seq_rem with
      | nil => cases hn
      | cons a b => exact ⟨a, b, rfl⟩
    have hlen : rest.length = tail.length := by
      have := hp.length_eq
      simp only [List.length_cons] at this
      omega
    have hdiv : (listIndex n (x :: tail) * Nat.factorial rest.length +
        seq_to_int_core rest (listRemove n (x :: tail))) / Nat.factorial tail.length =
        listIndex n (x :: tail) := by
      rw [← hlen, Nat.add_comm, Nat.add_mul_div_right _ _ (Nat.factorial_pos _),
        Nat.div_eq_of_lt hm, Nat.zero_add]
    have hmod : (listIndex n (x :: tail) * Nat.factorial rest.length +
        seq_to_int_core rest (listRemove n (x :: tail))) % Nat.factorial tail.length =
        seq_to_int_core rest (listRemove n (x :: tail)) := by
      rw [← hlen, Nat.mul_add_mod', Nat.mod_eq_of_lt hm]
    have hlenrem : (listRemove n (x :: tail)).length = tail.length := by
      have := hrest.length_eq
      omega
    have hloop : int_to_seq_loop tail.length
        (seq_to_int_core rest (listRemove n (x :: tail))) (listRemove n (x :: tail)) =
        some rest := by
      have := ih hrest
      rwa [hlenrem] at this
    simp only [seq_to_int_core, List.length_cons, int_to_seq_loop, hdiv,
      popAt_listIndex hn, hmod, hloop, Option.map]

lemma int_to_seq_loop_exists :
    ∀ (fuel : ℕ) (seq_rem : List ℕ) (num : ℕ), seq_rem.length = fuel →
      seq_rem.Nodup → num < Nat.factorial fuel →
      ∃ seq, int_to_seq_loop fuel num seq_rem = some seq ∧ seq ~ seq_rem ∧
        seq_to_int_core seq seq_rem = num := by
  intro fuel
  induction fuel with
  | zero =>
    intro seq_rem num hlen hnd hnum
    have : seq_rem = [] := List.length_eq_zero.mp hlen
    subst this
    have : num = 0 := by
      have : num < 1 := hnum
      omega
    subst this
    exact ⟨[], rfl, List.Perm.refl _, rfl⟩
  | succ fuel ih =>
    intro seq_rem num hlen hnd hnum
    obtain ⟨x, tail, rfl⟩ : ∃ x tail, seq_rem = x :: tail := by
      cases seq_rem with
      | nil => simp at hlen
      | cons a b => exact ⟨a, b, rfl⟩
    have htail : tail.length = fuel := by simpa using hlen
    have hkdiv : num / Nat.factorial fuel < fuel + 1 := by
      rw [Nat.div_lt_iff_lt_mul (Nat.factorial_pos fuel)]
      calc num < Nat.factorial (fuel + 1) := hnum
        _ = (fuel + 1) * Nat.factorial fuel := Nat.factorial_succ fuel
    obtain ⟨n, l2, hpop⟩ := popAt_lt (l := x :: tail)
      (k := num / Nat.factorial fuel) (by simp [htail]; omega)
    obtain ⟨hperm, hlen2, hnodup⟩ := popAt_some hpop
    obtain ⟨hrem, hidx, hl2nd⟩ := hnodup hnd
    have hl2len : l2.length = fuel := by
      simp only [List.length_cons] at hlen2
      omega
    obtain ⟨seq', hloop, hperm', hcore⟩ := ih l2 (num % Nat.factorial fuel) hl2len hl2nd
      (Nat.mod_lt num (Nat.factorial_pos fuel))
    refine ⟨n :: seq', ?_, (hperm'.cons n).trans hperm.symm, ?_⟩
    · simp only [int_to_seq_loop, htail, hpop, hloop, Option.map]
    · have hslen : seq'.length = fuel := hperm'.length_eq.trans hl2len
      simp only [seq_to_int_core, hslen, hidx, ← hrem, hcore]
      exact Nat.div_add_mod' num (Nat.factorial fuel)

/-- The Python membership check `set(seq) == set(range(len(seq)))` holds
exactly when `seq` is a permutation of `range(len(seq))`. -/
lemma seq_check_iff (seq : List ℕ) :
    seq.toFinset = (List.range seq.length).toFinset ↔ seq ~ List.range seq.length := by
  constructor
  · intro h
    rw [List.toFinset_eq_iff_perm_dedup,
      List.dedup_eq_self.mpr (List.nodup_range _)] at h
    have hlen : seq.dedup.length = seq.length := by
      simpa [List.length_range] using h.length_eq
    have hself : seq.dedup = seq := (List.dedup_sublist seq).eq_of_length hlen
    rwa [hself] at h
  · intro h
    exact List.toFinset_eq_of_perm _ _ h

/-- C5 (confirmed): the factorial-base encodings are mutual inverses between
permutations of `{0..n)` and integers in `range(factorial(n))`. -/
theorem seq_int_inverses (n : ℕ) :
    (∀ seq : List ℕ, seq ~ List.range n →
      ∃ k, seq_to_int seq = .ok k ∧ k < Nat.factorial n ∧ int_to_seq k n = .ok seq) ∧
    (∀ num : ℕ, num < Nat.factorial n →
      ∃ seq, int_to_seq num n = .ok seq ∧ seq_to_int seq = .ok num) := by
  constructor
  · intro seq hp
    have hlen : seq.length = n := by simpa [List.length_range] using hp.length_eq
    subst hlen
    refine ⟨seq_to_int_core seq (List.range seq.length), ?_, seq_to_int_core_lt hp, ?_⟩
    · rw [seq_to_int, if_pos ((seq_check_iff seq).mpr hp)]
    · rw [int_to_seq, if_pos (seq_to_int_core_lt hp)]
      have hloop := int_to_seq_loop_of_core hp
      rw [List.length_range] at hloop
      rw [hloop]
  · intro num hnum
    obtain ⟨seq, hloop, hperm, hcore⟩ := int_to_seq_loop_exists n (List.range n) num
      (List.length_range n) (List.nodup_range n) hnum
    have hlen : seq.length = n := by simpa [List.length_range] using hperm.length_eq
    refine ⟨seq, ?_, ?_⟩
    · rw [int_to_seq, if_pos hnum, hloop]
    · rw [seq_to_int, if_pos ((seq_check_iff seq).mpr (by rw [hlen]; exact hperm))]
      rw [hlen, hcore]

/-- C6 (confirmed): with input checking enabled, `seq_to_int` raises exactly
on the sequences that are not permutations of `{0..len(seq))` (duplicates or
out-of-range indices), and `int_to_seq` raises exactly on integers outside
`range(factorial(length))`; neither raises on valid inputs. -/
theorem check_input_errors :
    (∀ seq : List ℕ,
      (∃ e, seq_to_int seq = .error e) ↔ ¬seq ~ List.range seq.length) ∧
    (∀ num length : ℕ,
      (∃ e, int_to_seq num length = .error e) ↔ Nat.factorial length ≤ num) := by
  constructor
  · intro seq
    constructor
    · rintro ⟨e, he⟩ hp
      rw [seq_to_int, if_pos ((seq_check_iff seq).mpr hp)] at he
      cases he
    · intro hp
      exact ⟨_, by rw [seq_to_int, if_neg (fun hc => hp ((seq_check_iff seq).mp hc))]⟩
  · intro num length
    constructor
    · rintro ⟨e, he⟩
      by_contra hlt
      push_neg at hlt
      obtain ⟨seq, hloop, -, -⟩ := int_to_seq_loop_exists length (List.range length) num
        (List.length_range length) (List.nodup_range length) hlt
      rw [int_to_seq, if_pos hlt, hloop] at he
      cases he
    · intro hge
      exact ⟨_, by rw [int_to_seq, if_neg (Nat.not_lt.mpr hge)]⟩

lemma env_reset_mismatch {env : Env} {tasks : List ReluDrop} {ch_avail : List ℚ}
    (hbad : tasks.length ≠ env.n_tasks ∨ ch_avail.length ≠ env.n_ch) :
    ∃ e, env.reset tasks ch_avail = .error e := by
  rw [Env.reset]
  by_cases h1 : tasks.length ≠ env.n_tasks
  · exact ⟨_, by rw [if_pos h1]⟩
  · rcases hbad with hb | hb
    · exact absurd hb h1
    · exact ⟨_, by rw [if_neg h1, if_pos hb]⟩

lemma envKW_reset_mismatch {env : EnvKW} {tasks : List ReluDrop} {ch_avail : List ℚ}
    (hbad : tasks.length ≠ env.n_tasks ∨ ch_avail.length ≠ env.n_ch) :
    ∃ e, env.reset tasks ch_avail false = .error e := by
  rw [EnvKW.reset, if_neg (by simp : ¬false = true)]
  by_cases h1 : tasks.length ≠ env.n_tasks
  · exact ⟨_, by rw [if_pos h1]⟩
  · rcases hbad with hb | hb
    · exact absurd hb h1
    · exact ⟨_, by rw [if_neg h1, if_pos hb]⟩

/-- C7 (confirmed): on explicit (non-`None`) reset inputs, a task list whose
length differs from `n_tasks`, or a channel-availability list whose length
differs from the number of channels, makes `reset` raise a shape error in
both environment implementations (the `Py` variant on its default
`persist=False` path), and no environment with a node re-initialized from
those inputs is returned. -/
theorem reset_shape_guard :
    (∀ (env : Env) (tasks : List ReluDrop) (ch_avail : List ℚ),
      tasks.length ≠ env.n_tasks ∨ ch_avail.length ≠ env.n_ch →
      (∃ e, env.reset tasks ch_avail = .error e) ∧
        ∀ env2, env.reset tasks ch_avail ≠ .ok env2) ∧
    (∀ (env : EnvKW) (tasks : List ReluDrop) (ch_avail : List ℚ),
      tasks.length ≠ env.n_tasks ∨ ch_avail.length ≠ env.n_ch →
      (∃ e, env.reset tasks ch_avail false = .error e) ∧
        ∀ env2, env.reset tasks ch_avail false ≠ .ok env2) := by
  constructor
  · intro env tasks ch_avail hbad
    obtain ⟨e, he⟩ := env_reset_mismatch hbad
    refine ⟨⟨e, he⟩, fun env2 hok => ?_⟩
    rw [he] at hok
    cases hok
  · intro env tasks ch_avail hbad
    obtain ⟨e, he⟩ := envKW_reset_mismatch hbad
    refine ⟨⟨e, he⟩, fun env2 hok => ?_⟩
    rw [he] at hok
    cases hok

/-! ### Small lemmas for the branch-and-bound proof -/

lemma minIdx_le {l : List ℚ} : ∀ a ∈ l, (minIdx l).2 ≤ a := by
  induction l with
  | nil => intro a ha; cases ha
  | cons x xs ih =>
    intro a ha
    cases xs with
    | nil =>
      rcases List.mem_cons.mp ha with rfl | h1
      · exact le_refl _
      · cases h1
    | cons y ys =>
      simp only [minIdx]
      split_ifs with hx
      · rcases List.mem_cons.mp ha with rfl | h1
        · exact le_refl _
        · exact le_trans hx (ih a h1)
      · rcases List.mem_cons.mp ha with rfl | h1
        · exact le_of_lt (lt_of_not_le hx)
        · exact ih a h1

lemma minIdx_mem {l : List ℚ} (h : l ≠ []) : (minIdx l).2 ∈ l := by
  induction l with
  | nil => exact absurd rfl h
  | cons x xs ih =>
    cases xs with
    | nil => exact List.mem_cons_self _ _
    | cons y ys =>
      simp only [minIdx]
      split_ifs with hx
      · exact List.mem_cons_self _ _
      · exact List.mem_cons_of_mem x (ih (by simp))

lemma listRemove_length {n : ℕ} {l : List ℕ} (h : n ∈ l) :
    (listRemove n l).length + 1 = l.length := by
  have := (perm_cons_listRemove h).length_eq
  simpa using this.symm

lemma runSeq_append (tasks : List Task) (nd : Node) (a b : List ℕ) :
    runSeq tasks nd (a ++ b) = runSeq tasks (runSeq tasks nd a) b :=
  List.foldl_append _ _ _ _

lemma extend_ch_len (tasks : List Task) (nd : Node) (i : ℕ) :
    (extend tasks nd i).ch_avail.length = nd.ch_avail.length :=
  List.length_set _ _ _

lemma extend_ch_ne (tasks : List Task) {nd : Node} (i : ℕ)
    (hch : nd.ch_avail ≠ []) : (extend tasks nd i).ch_avail ≠ [] := by
  intro hc
  apply hch
  have := extend_ch_len tasks nd i
  rw [hc] at this
  exact List.length_eq_zero.mp this.symm

lemma tasksOK_of_forall {tasks : List Task}
    (hdur : ∀ τ ∈ tasks, 0 ≤ τ.duration)
    (hmono : ∀ τ ∈ tasks, ∀ s t : ℚ, τ.t_release ≤ s → s ≤ t → τ.loss s ≤ τ.loss t) :
    TasksOK tasks := by
  intro i
  by_cases hi : i < tasks.length
  · rw [List.getD_eq_getElem _ _ hi]
    exact ⟨hdur _ (List.getElem_mem hi), hmono _ (List.getElem_mem hi)⟩
  · rw [List.getD_eq_default _ _ (Nat.le_of_not_lt hi)]
    exact ⟨le_refl 0, fun s t _ _ => le_refl 0⟩

lemma extend_min_le {tasks : List Task} (hOK : TasksOK tasks) {nd : Node}
    (hch : nd.ch_avail ≠ []) (i : ℕ) :
    (minIdx nd.ch_avail).2 ≤ (minIdx (extend tasks nd i).ch_avail).2 := by
  have hne : (extend tasks nd i).ch_avail ≠ [] := extend_ch_ne tasks i hch
  have hm := minIdx_mem hne
  rcases List.mem_or_eq_of_mem_set hm with h1 | h1
  · exact minIdx_le _ h1
  · rw [h1]
    have ht : (minIdx nd.ch_avail).2 ≤
        max (minIdx nd.ch_avail).2 (tasks.getD i Task.dummy).t_release :=
      le_max_left _ _
    have hd := (hOK i).1
    linarith

lemma lowerBound_terminal (tasks : List Task) {nd : Node}
    (h : nd.seq_rem = []) : lowerBound tasks nd = nd.loss := by
  simp [lowerBound, h]

lemma lowerBound_extend {tasks : List Task} (hOK : TasksOK tasks) {nd : Node}
    {i : ℕ} (hch : nd.ch_avail ≠ []) (hi : i ∈ nd.seq_rem) :
    lowerBound tasks nd ≤ lowerBound tasks (extend tasks nd i) := by
  set m := (minIdx nd.ch_avail).2 with hm
  set m' := (minIdx (extend tasks nd i).ch_avail).2 with hm'
  have hmm : m ≤ m' := extend_min_le hOK hch i
  set f := fun j : ℕ =>
    (tasks.getD j Task.dummy).loss (max m (tasks.getD j Task.dummy).t_release) with hf
  set g := fun j : ℕ =>
    (tasks.getD j Task.dummy).loss (max m' (tasks.getD j Task.dummy).t_release) with hg
  have hsplit : (nd.seq_rem.map f).sum = f i + ((listRemove i nd.seq_rem).map f).sum := by
    have hp := (perm_cons_listRemove hi).map f
    rw [hp.sum_eq, List.map_cons, List.sum_cons]
  have hterm : ∀ j ∈ listRemove i nd.seq_rem, f j ≤ g j := by
    intro j _
    exact (hOK j).2 _ _ (le_max_right _ _) (max_le_max hmm (le_refl _))
  have hsum := List.sum_le_sum hterm
  have hLB : lowerBound tasks nd = nd.loss + (nd.seq_rem.map f).sum := rfl
  have hLB2 : lowerBound tasks (extend tasks nd i) =
      nd.loss + f i + ((listRemove i nd.seq_rem).map g).sum := rfl
  rw [hLB, hLB2, hsplit]
  linarith

lemma lowerBound_le_completion {tasks : List Task} (hOK : TasksOK tasks) :
    ∀ (σ : List ℕ) (nd : Node), nd.ch_avail ≠ [] → σ ~ nd.seq_rem →
      lowerBound tasks nd ≤ (runSeq tasks nd σ).loss := by
  intro σ
  induction σ with
  | nil =>
    intro nd hch hp
    have hterm : nd.seq_rem = [] := hp.symm.eq_nil
    rw [lowerBound_terminal tasks hterm]
    exact le_refl _
  | cons i σ' ih =>
    intro nd hch hp
    have hi : i ∈ nd.seq_rem := hp.mem_iff.mp (List.mem_cons_self _ _)
    have hσ' : σ' ~ (extend tasks nd i).seq_rem :=
      (hp.trans (perm_cons_listRemove hi)).cons_inv
    have hrun : runSeq tasks nd (i :: σ') = runSeq tasks (extend tasks nd i) σ' := rfl
    rw [hrun]
    exact le_trans (lowerBound_extend hOK hch hi)
      (ih _ (extend_ch_ne tasks i hch) hσ')

lemma keepChild_false {tasks : List Task} {child : Node} {acc : Option Node}
    (h : keepChild tasks child acc = false) :
    ∃ b, acc = some b ∧ b.loss ≤ lowerBound tasks child := by
  cases acc with
  | none => cases h
  | some b =>
    refine ⟨b, rfl, ?_⟩
    simp only [keepChild, decide_eq_false_iff_not, not_lt] at h
    exact h

lemma better_false {nd : Node} {inc : Option Node} (h : better nd inc = false) :
    ∃ b, inc = some b ∧ b.loss ≤ nd.loss := by
  cases inc with
  | none => cases h
  | some b =>
    refine ⟨b, rfl, ?_⟩
    simp only [better, decide_eq_false_iff_not, not_lt] at h
    exact h

lemma extend_seq_rem (tasks : List Task) (nd : Node) (i : ℕ) :
    (extend tasks nd i).seq_rem = listRemove i nd.seq_rem := rfl

lemma bbAux_terminal {tasks : List Task} {ch0 : List ℚ} {fuel : ℕ} {nd : Node}
    {inc : Option Node}
    (hterm : nd.seq_rem = [])
    (hReach : ∃ ρ, nd = runSeq tasks (rootNode tasks ch0) ρ ∧
      (ρ ++ nd.seq_rem) ~ List.range tasks.length)
    (hInc : inc = none ∨ ∃ π, π ~ List.range tasks.length ∧
      inc = some (runSeq tasks (rootNode tasks ch0) π)) :
    ∃ r, bbAux tasks fuel nd inc = some r ∧
      (∃ π, π ~ List.range tasks.length ∧ r = runSeq tasks (rootNode tasks ch0) π) ∧
      (∀ b, inc = some b → r.loss ≤ b.loss) ∧
      (∀ σ, σ ~ nd.seq_rem → r.loss ≤ (runSeq tasks nd σ).loss) := by
  obtain ⟨ρ, hρeq, hρperm⟩ := hReach
  rw [hterm, List.append_nil] at hρperm
  have hcompl : ∀ σ, σ ~ nd.seq_rem → runSeq tasks nd σ = nd := by
    intro σ hσ
    rw [hterm] at hσ
    rw [hσ.eq_nil]
    rfl
  have heq : bbAux tasks fuel nd inc = if better nd inc then some nd else inc := by
    cases fuel with
    | zero => rw [bbAux, if_pos hterm]
    | succ fuel => rw [bbAux, if_pos hterm]
  cases hb : better nd inc with
  | true =>
    refine ⟨nd, by rw [heq, hb, if_pos rfl], ⟨ρ, hρperm, hρeq⟩, ?_, ?_⟩
    · intro b hbeq
      rw [hbeq] at hb
      simp only [better, decide_eq_true_eq] at hb
      exact le_of_lt hb
    · intro σ hσ
      rw [hcompl σ hσ]
  | false =>
    obtain ⟨b, hbeq, hble⟩ := better_false hb
    rcases hInc with h | ⟨π, hπ, hinceq⟩
    · rw [h] at hbeq
      cases hbeq
    · have hbval : b = runSeq tasks (rootNode tasks ch0) π := by
        rw [hbeq] at hinceq
        exact Option.some.inj hinceq
      refine ⟨b, ?_, ⟨π, hπ, hbval⟩, ?_, ?_⟩
      · rw [heq, hb, if_neg (by simp), hbeq]
      · intro b2 hb2
        rw [hbeq] at hb2
        rw [Option.some.inj hb2]
      · intro σ hσ
        rw [hcompl σ hσ]
        exact hble

lemma bbFold_spec {tasks : List Task} {ch0 : List ℚ} (hOK : TasksOK tasks)
    {fuel : ℕ} {nd : Node}
    (IH : ∀ (nd' : Node) (inc' : Option Node), nd'.seq_rem.length = fuel →
      nd'.ch_avail ≠ [] →
      (∃ ρ, nd' = runSeq tasks (rootNode tasks ch0) ρ ∧
        (ρ ++ nd'.seq_rem) ~ List.range tasks.length) →
      (inc' = none ∨ ∃ π, π ~ List.range tasks.length ∧
        inc' = some (runSeq tasks (rootNode tasks ch0) π)) →
      ∃ r, bbAux tasks fuel nd' inc' = some r ∧
        (∃ π, π ~ List.range tasks.length ∧ r = runSeq tasks (rootNode tasks ch0) π) ∧
        (∀ b, inc' = some b → r.loss ≤ b.loss) ∧
        (∀ σ, σ ~ nd'.seq_rem → r.loss ≤ (runSeq tasks nd' σ).loss))
    (hlen : nd.seq_rem.length = fuel + 1) (hch : nd.ch_avail ≠ [])
    (hReach : ∃ ρ, nd = runSeq tasks (rootNode tasks ch0) ρ ∧
      (ρ ++ nd.seq_rem) ~ List.range tasks.length) :
    ∀ (L : List ℕ) (acc : Option Node), (∀ i ∈ L, i ∈ nd.seq_rem) →
      (acc = none ∨ ∃ π, π ~ List.range tasks.length ∧
        acc = some (runSeq tasks (rootNode tasks ch0) π)) →
      (L ≠ [] ∨ acc ≠ none) →
      ∃ r, L.foldl (bbStep tasks fuel nd) acc = some r ∧
        (∃ π, π ~ List.range tasks.length ∧ r = runSeq tasks (rootNode tasks ch0) π) ∧
        (∀ b, acc = some b → r.loss ≤ b.loss) ∧
        (∀ i ∈ L, ∀ σ', σ' ~ listRemove i nd.seq_rem →
          r.loss ≤ (runSeq tasks (extend tasks nd i) σ').loss) := by
  intro L
  induction L with
  | nil =>
    intro acc hsub hAcc hne
    rcases hne with hne | hne
    · exact absurd rfl hne
    · rcases hAcc with h | ⟨π, hπ, haeq⟩
      · exact absurd h hne
      · refine ⟨runSeq tasks (rootNode tasks ch0) π, ?_, ⟨π, hπ, rfl⟩, ?_, ?_⟩
        · rw [List.foldl_nil, haeq]
        · intro b hb
          rw [haeq] at hb
          rw [← Option.some.inj hb]
        · intro i hi
          cases hi
  | cons i L2 ihL =>
    intro acc hsub hAcc hne
    have hi : i ∈ nd.seq_rem := hsub i (List.mem_cons_self _ _)
    have hsub2 : ∀ j ∈ L2, j ∈ nd.seq_rem := fun j hj => hsub j (List.mem_cons_of_mem _ hj)
    have hchildlen : (extend tasks nd i).seq_rem.length + 1 = nd.seq_rem.length := by
      rw [extend_seq_rem]
      exact listRemove_length hi
    have hchildch := extend_ch_ne tasks i hch
    have hchildReach : ∃ ρ', extend tasks nd i = runSeq tasks (rootNode tasks ch0) ρ' ∧
        (ρ' ++ (extend tasks nd i).seq_rem) ~ List.range tasks.length := by
      obtain ⟨ρ, hρeq, hρperm⟩ := hReach
      refine ⟨ρ ++ [i], ?_, ?_⟩
      · rw [runSeq_append, ← hρeq]
        rfl
      · have h1 : nd.seq_rem ~ i :: listRemove i nd.seq_rem := perm_cons_listRemove hi
        have h2 : (ρ ++ nd.seq_rem) ~ ρ ++ i :: listRemove i nd.seq_rem :=
          List.Perm.append_left ρ h1
        have h3 : ρ ++ i :: listRemove i nd.seq_rem =
            (ρ ++ [i]) ++ listRemove i nd.seq_rem := by simp
        rw [h3] at h2
        rw [extend_seq_rem]
        exact h2.symm.trans hρperm
    cases hkeep : keepChild tasks (extend tasks nd i) acc with
    | true =>
      obtain ⟨r1, hr1eq, hr1π, hr1imp, hr1comp⟩ :=
        IH (extend tasks nd i) acc (by omega) hchildch hchildReach hAcc
      have hAcc2 : (some r1 = none ∨ ∃ π, π ~ List.range tasks.length ∧
          some r1 = some (runSeq tasks (rootNode tasks ch0) π)) := by
        obtain ⟨π, hπ, hreq⟩ := hr1π
        exact Or.inr ⟨π, hπ, by rw [hreq]⟩
      obtain ⟨r, hreq2, hrπ, hrimp, hrcomp⟩ :=
        ihL (some r1) hsub2 hAcc2 (Or.inr (by simp))
      have hstep : (i :: L2).foldl (bbStep tasks fuel nd) acc =
          L2.foldl (bbStep tasks fuel nd) (some r1) := by
        rw [List.foldl_cons, bbStep, if_pos hkeep, hr1eq]
      refine ⟨r, by rw [hstep]; exact hreq2, hrπ, ?_, ?_⟩
      · intro b hb
        exact le_trans (hrimp r1 rfl) (hr1imp b hb)
      · intro j hj σ2 hσ2
        rcases List.mem_cons.mp hj with rfl | hj2
        · exact le_trans (hrimp r1 rfl)
            (hr1comp σ2 (by rw [extend_seq_rem]; exact hσ2))
        · exact hrcomp j hj2 σ2 hσ2
    | false =>
      obtain ⟨b, hbeq, hble⟩ := keepChild_false hkeep
      obtain ⟨r, hreq2, hrπ, hrimp, hrcomp⟩ :=
        ihL acc hsub2 hAcc (Or.inr (by rw [hbeq]; simp))
      have hstep : (i :: L2).foldl (bbStep tasks fuel nd) acc =
          L2.foldl (bbStep tasks fuel nd) acc := by
        rw [List.foldl_cons, bbStep, if_neg (by rw [hkeep]; simp)]
      refine ⟨r, by rw [hstep]; exact hreq2, hrπ, hrimp, ?_⟩
      intro j hj σ2 hσ2
      rcases List.mem_cons.mp hj with rfl | hj2
      · have h1 := lowerBound_le_completion hOK σ2 (extend tasks nd j) hchildch
          (by rw [extend_seq_rem]; exact hσ2)
        have h2 := hrimp b hbeq
        linarith
      · exact hrcomp j hj2 σ2 hσ2

lemma bbAux_spec {tasks : List Task} {ch0 : List ℚ} (hOK : TasksOK tasks) :
    ∀ (fuel : ℕ) (nd : Node) (inc : Option Node),
      nd.seq_rem.length = fuel → nd.ch_avail ≠ [] →
      (∃ ρ, nd = runSeq tasks (rootNode tasks ch0) ρ ∧
        (ρ ++ nd.seq_rem) ~ List.range tasks.length) →
      (inc = none ∨ ∃ π, π ~ List.range tasks.length ∧
        inc = some (runSeq tasks (rootNode tasks ch0) π)) →
      ∃ r, bbAux tasks fuel nd inc = some r ∧
        (∃ π, π ~ List.range tasks.length ∧ r = runSeq tasks (rootNode tasks ch0) π) ∧
        (∀ b, inc = some b → r.loss ≤ b.loss) ∧
        (∀ σ, σ ~ nd.seq_rem → r.loss ≤ (runSeq tasks nd σ).loss) := by
  intro fuel
  induction fuel with
  | zero =>
    intro nd inc hlen hch hReach hInc
    exact bbAux_terminal (List.length_eq_zero.mp hlen) hReach hInc
  | succ fuel ih =>
    intro nd inc hlen hch hReach hInc
    by_cases hnil : nd.seq_rem = []
    · exact bbAux_terminal hnil hReach hInc
    · obtain ⟨j, rest, hseq⟩ : ∃ j rest, nd.seq_rem = j :: rest := by
        cases hc : nd.seq_rem with
        | nil => exact absurd hc hnil
        | cons a b => exact ⟨a, b, rfl⟩
      have hredux : bbAux tasks (fuel + 1) nd inc =
          nd.seq_rem.foldl (bbStep tasks fuel nd) inc := by
        rw [bbAux, if_neg hnil]
        rfl
      obtain ⟨r, hreq, hrπ, hrimp, hrcomp⟩ :=
        bbFold_spec hOK (fun nd2 inc2 h1 h2 h3 h4 => ih nd2 inc2 h1 h2 h3 h4)
          hlen hch hReach nd.seq_rem inc (fun _ h => h) hInc (Or.inl hnil)
      refine ⟨r, by rw [hredux]; exact hreq, hrπ, hrimp, ?_⟩
      intro σ hσ
      rcases hσcase : σ with _ | ⟨k, σ2⟩
      · rw [hσcase] at hσ
        exact absurd hσ.symm.eq_nil hnil
      · rw [hσcase] at hσ
        have hk : k ∈ nd.seq_rem := hσ.mem_iff.mp (List.mem_cons_self _ _)
        have hσ2 : σ2 ~ listRemove k nd.seq_rem :=
          (hσ.trans (perm_cons_listRemove hk)).cons_inv
        have hrun : runSeq tasks nd (k :: σ2) = runSeq tasks (extend tasks nd k) σ2 := rfl
        rw [hrun]
        exact hrcomp k hk σ2 hσ2

/-- C8 (confirmed, modelled from the spec): for a valid scheduling problem
(a nonempty channel bank, nonnegative durations, and each task's loss
non-decreasing from its release time on — the ReluDrop invariant),
`branch_bound` returns the terminal node — execution times `t_ex`, channel
assignments `ch_ex` and loss — produced by some task-index permutation,
whose loss is minimal over all task-index permutations: pruning by the
admissible lower bound never discards an optimal schedule. -/
theorem branch_bound_optimal (tasks : List Task) (ch0 : List ℚ)
    (hch : ch0 ≠ [])
    (hdur : ∀ τ ∈ tasks, 0 ≤ τ.duration)
    (hmono : ∀ τ ∈ tasks, ∀ s t : ℚ, τ.t_release ≤ s → s ≤ t → τ.loss s ≤ τ.loss t) :
    ∃ π, π ~ List.range tasks.length ∧
      branch_bound tasks ch0 = some (runSeq tasks (rootNode tasks ch0) π) ∧
      ∀ σ, σ ~ List.range tasks.length →
        (runSeq tasks (rootNode tasks ch0) π).loss ≤
          (runSeq tasks (rootNode tasks ch0) σ).loss := by
  have hOK := tasksOK_of_forall hdur hmono
  obtain ⟨r, hreq, ⟨π, hπ, hrπ⟩, -, hrcomp⟩ :=
    bbAux_spec hOK tasks.length (rootNode tasks ch0) none
      (by simp [rootNode]) hch ⟨[], rfl, by simp [rootNode]⟩ (Or.inl rfl)
  refine ⟨π, hπ, ?_, ?_⟩
  · rw [branch_bound, hreq, hrπ]
  · intro σ hσ
    rw [← hrπ]
    exact hrcomp σ hσ

/-- Witness for the C8 theorem: one unit-slope task on one idle channel. -/
theorem branch_bound_optimal_witness :
    ∃ π, π ~ List.range [(⟨1, 0, fun t => t⟩ : Task)].length ∧
      branch_bound [(⟨1, 0, fun t => t⟩ : Task)] [0] =
        some (runSeq [(⟨1, 0, fun t => t⟩ : Task)]
          (rootNode [(⟨1, 0, fun t => t⟩ : Task)] [0]) π) ∧
      ∀ σ, σ ~ List.range [(⟨1, 0, fun t => t⟩ : Task)].length →
        (runSeq [(⟨1, 0, fun t => t⟩ : Task)]
          (rootNode [(⟨1, 0, fun t => t⟩ : Task)] [0]) π).loss ≤
        (runSeq [(⟨1, 0, fun t => t⟩ : Task)]
          (rootNode [(⟨1, 0, fun t => t⟩ : Task)] [0]) σ).loss :=
  branch_bound_optimal [(⟨1, 0, fun t => t⟩ : Task)] [0] (by simp)
    (by intro τ hτ; rcases List.mem_singleton.mp hτ with rfl; norm_num)
    (by intro τ hτ; rcases List.mem_singleton.mp hτ with rfl; intro s t _ hst; simpa using hst)

end TaskSched
